import Mathlib

/-!
Shallow embedding of `src/lassl/collators.py` (seopbo/lassl).

Vectorized torch operations are translated into list operations over `ℕ`/`ℤ`;
Python floats are modelled as `ℚ` with Python's banker's rounding; operations
that raise at runtime (out-of-range `scatter` indices, `Tensor.min()` on an
empty tensor, `random.randrange` on an empty range) return `Option.none`.
Randomness (shuffled bar vectors, `randrange`/`randint` draws) is passed in
explicitly; `validBars` characterises exactly the bar vectors that
`torch.randperm` can produce in `_random_segmentation`.
-/

namespace Lassl

/-- Inclusive prefix sums, the list form of `torch.cumsum(_, dim=0)`. -/
def cumsum : List ℕ → List ℕ
  | [] => []
  | x :: xs => x :: (cumsum xs).map (fun y => x + y)

/-- Count of maximal contiguous `true` runs, scanning with the previous value. -/
def runsAux : Bool → List Bool → ℕ
  | _, [] => 0
  | prev, b :: bs => (if b && !prev then 1 else 0) + runsAux b bs

/-- Number of maximal contiguous `true` runs (noise spans) of a boolean mask. -/
def countTrueRuns (l : List Bool) : ℕ := runsAux false l

/-- Python's `round`: nearest integer, ties to the even neighbour. -/
def pyRound (q : ℚ) : ℤ :=
  let f := ⌊q⌋
  if q - f < 1/2 then f
  else if (1 : ℚ)/2 < q - f then f + 1
  else if f % 2 = 0 then f else f + 1

/-- `_random_segmentation(num_items, num_segments)` (collators.py lines 281-290)
with the shuffled bar vector passed in: `segment_id` is the cumulative sum of the
bars with a leading `0`, and the segment lengths are the `scatter_add` counts of
each segment id.  `bars` stands for
`(torch.arange(num_items - 1) < num_segments - 1)[torch.randperm(num_items - 1)]`,
so it has `num_items - 1` entries of which
`min (num_items - 1) (num_segments - 1)` are true; see `validBars`. -/
def randomSegmentation (numSegments : ℕ) (bars : List Bool) : List ℕ :=
  let segmentId := cumsum ((false :: bars).map Bool.toNat)
  (List.range numSegments).map (fun k => segmentId.count k)

/-- The bar vectors reachable by `torch.randperm` in `_random_segmentation`:
any permutation of `torch.arange(num_items - 1) < num_segments - 1`. -/
abbrev validBars (numItems numSegments : ℕ) (bars : List Bool) : Prop :=
  bars.length = numItems - 1 ∧ bars.count true = min (numItems - 1) (numSegments - 1)

/-- `torch.stack((a, b), dim=1).reshape(-1)` for equal-length 1-d tensors. -/
def interleave : List ℕ → List ℕ → List ℕ
  | x :: xs, y :: ys => x :: y :: interleave xs ys
  | _, _ => []

/-- `num_noise_tokens` of `_random_spans_noise_mask` (collators.py lines 273-276):
`round(noise_density * length)` for the length clamped to at least 2, then
clamped to `[1, length - 1]`. -/
def numNoiseTokens (d : ℚ) (L : ℕ) : ℕ :=
  let len : ℕ := max L 2
  (min (max (pyRound (d * (len : ℚ))) 1) ((len : ℤ) - 1)).toNat

/-- `num_noise_spans` of `_random_spans_noise_mask` (collators.py lines 277-278):
`max(1, round(num_noise_tokens / mean_span_length))`. -/
def numNoiseSpans (d m : ℚ) (L : ℕ) : ℕ :=
  (max (pyRound ((numNoiseTokens d L : ℚ) / m)) 1).toNat

/-- `DataCollatorForT5._random_spans_noise_mask` (collators.py lines 271-299).
The two bar vectors are the shuffled bars used by the two
`_random_segmentation` calls (noise spans, then non-noise spans).  `torch.scatter`
raises on an out-of-range index, modelled by `none`; duplicate scatter indices
all write `1`, so the indicator is plain membership in `span_starts`. -/
def random_spans_noise_mask (d m : ℚ) (L : ℕ)
    (barsNoise barsNonNoise : List Bool) : Option (List Bool) :=
  let len : ℕ := max L 2
  let nSpans := numNoiseSpans d m L
  let noiseSpanLengths := randomSegmentation nSpans barsNoise
  let nonNoiseSpanLengths := randomSegmentation nSpans barsNonNoise
  let interleavedSpanLengths := interleave nonNoiseSpanLengths noiseSpanLengths
  let spanStarts := (cumsum interleavedSpanLengths).dropLast
  if spanStarts.all (fun s => decide (s < len)) then
    let spanStartIndicator := (List.range len).map (fun i => decide (i ∈ spanStarts))
    let spanNum := cumsum (spanStartIndicator.map Bool.toNat)
    some ((spanNum.map (fun c => decide (c % 2 = 1))).take L)
  else
    none

/-- Reference form of the parity-mask construction: position `i` is noise iff
an odd number of span boundaries (prefix sums of the interleaved span lengths)
lie at or before `i`.  Matches the scatter/cumsum construction of
`_random_spans_noise_mask` whenever all span lengths are positive (so that no
two boundaries collide). -/
def parityMask (ls : List ℕ) : List Bool :=
  (List.range ls.sum).map
    (fun i => decide ((cumsum ls).countP (fun s => decide (s ≤ i)) % 2 = 1))

/-- Three-way `zipWith`, used for `torch.where(cond, a, b)` over three lists. -/
def zipWith3 (f : α → β → γ → δ) : List α → List β → List γ → List δ
  | x :: xs, y :: ys, z :: zs => f x y z :: zipWith3 f xs ys zs
  | _, _, _ => []

/-- `torch.Tensor.min()` for a 1-d integer tensor; `none` for the empty tensor,
where torch raises. -/
def listMin : List ℤ → Option ℤ
  | [] => none
  | x :: xs => some (xs.foldl min x)

/-- `first_noise_tokens` of `_noise_span_to_unique_sentinel` (collators.py
lines 305-306): noise positions whose previous position is not noise.  The
previous-position vector `torch.cat((torch.tensor([0]), noise_mask[:-1]))` is
generalised over its leading entry `prev0` (the source always passes
`false`). -/
def firstNoiseVec (mask : List Bool) (prev0 : Bool) : List Bool :=
  List.zipWith (fun m p => m && !p) mask (prev0 :: mask.dropLast)

/-- `subsequent_noise_tokens` (collators.py line 307): noise positions whose
previous position is also noise. -/
def subseqNoiseVec (mask : List Bool) (prev0 : Bool) : List Bool :=
  List.zipWith (fun m p => m && p) mask (prev0 :: mask.dropLast)

/-- `sentinel = vocab["<extra_id_0>"] + 1 - cumsum(first_noise_tokens)`
(collators.py line 308), generalised over a starting count `k0` (the source
always passes `0`). -/
def sentinelVec (V : ℤ) (mask : List Bool) (prev0 : Bool) (k0 : ℕ) : List ℤ :=
  (cumsum ((firstNoiseVec mask prev0).map Bool.toNat)).map
    (fun c => V + 1 - ((k0 + c : ℕ) : ℤ))

/-- Lines 309-310 of collators.py: `torch.where(first_noise_tokens, sentinel,
tokens)` followed by `torch.masked_select(tokens, ~subsequent_noise_tokens)`,
generalised over `prev0` and `k0` as above. -/
def vecCore (V : ℤ) (tokens : List ℤ) (mask : List Bool) (prev0 : Bool) (k0 : ℕ) : List ℤ :=
  ((zipWith3 (fun f s t => if f then s else t)
      (firstNoiseVec mask prev0) (sentinelVec V mask prev0 k0) tokens).zip
    (subseqNoiseVec mask prev0)).filterMap
    (fun p => if p.2 then none else some p.1)

/-- `DataCollatorForT5._noise_span_to_unique_sentinel` (collators.py lines
301-315), assembled from the pieces above at `prev0 = false`, `k0 = 0` exactly
as in the source.  `V` is `tokenizer.get_vocab()["<extra_id_0>"]` and `eosId`
is `tokenizer.eos_token_id`.  Length mismatch between tokens and mask (which
torch rejects for sizes other than 1) is modelled as `none`, as is
`sentinel.min()` on an empty tensor (a `RuntimeError` in torch). -/
def noise_span_to_unique_sentinel (V eosId : ℤ) (tokens : List ℤ)
    (noiseMask : List Bool) (appendLastSentinel : Bool) : Option (List ℤ) :=
  if tokens.length = noiseMask.length then
    let kept := vecCore V tokens noiseMask false 0
    if appendLastSentinel then
      match listMin (sentinelVec V noiseMask false 0) with
      | none => none
      | some mn => some (kept ++ [mn - 1] ++ [eosId])
    else
      some (kept ++ [eosId])
  else
    none

/-- Tokens at the positions where the mask equals `b`, in order. -/
def maskSelect (b : Bool) (mask : List Bool) (ts : List ℤ) : List ℤ :=
  (List.zip mask ts).filterMap (fun p => if p.1 = b then some p.2 else none)

/-- Re-interleave the two halves of a mask partition: take from `bs` at `true`
positions and from `cs` at `false` positions. -/
def unpartition : List Bool → List ℤ → List ℤ → List ℤ
  | [], _, _ => []
  | false :: ms, c :: cs, bs => c :: unpartition ms cs bs
  | false :: _, [], _ => []
  | true :: ms, cs, b :: bs => b :: unpartition ms cs bs
  | true :: _, _, [] => []

/-- Decode-side cleanup of one `_noise_span_to_unique_sentinel` output: drop
the trailing eos token, then drop every id in the reserved sentinel range
(ids `≥ T`). -/
def stripDecode (T : ℤ) (l : List ℤ) : List ℤ :=
  l.dropLast.filter (fun x => decide (x < T))

/-- The sentence-order-split `randrange` bounds
`(seq_length // 3, seq_length // 3 * 2)`, identical in
`DataCollatorForBert._prepare_wwm_and_sop_from_examples` (collators.py line 73)
and `DataCollatorForAlbert._prepare_sop_from_examples` (line 131). -/
def sop_split_bounds (n : ℕ) : ℕ × ℕ := (n / 3, n / 3 * 2)

/-- `split_position = random.randrange(start, end)` with an injected uniform
draw `r`: `start + r % (end - start)`; Python raises `ValueError` on an empty
range, modelled as `none`. -/
def sop_split_position (n r : ℕ) : Option ℕ :=
  let b := sop_split_bounds n
  if b.2 ≤ b.1 then none else some (b.1 + r % (b.2 - b.1))

/-- The rejection loop of `DataCollatorForElectra._generate_fake_inputs._fake_input_id`
(collators.py lines 391-396), with an injected stream of uniform draws
(`random.randint(0, vocab_size - 1)` is `draws i % vocabSize`) and explicit
fuel: `none` means the fuel ran out with every draw rejected, i.e. the loop is
still running. -/
def rejectLoop (forbiddenIds : List ℤ) (vocabSize : ℕ) (draws : ℕ → ℕ) : ℕ → ℕ → Option ℤ
  | i, fuel =>
    let cand : ℤ := ((draws i % vocabSize : ℕ) : ℤ)
    if cand ∈ forbiddenIds then
      match fuel with
      | 0 => none
      | fuel' + 1 => rejectLoop forbiddenIds vocabSize draws (i + 1) fuel'
    else
      some cand

/-- `_fake_input_id(original_id)`: the forbidden set is
`tokenizer.all_special_ids + [original_id]`. -/
def fake_input_id (specialIds : List ℤ) (originalId : ℤ) (vocabSize : ℕ)
    (draws : ℕ → ℕ) (fuel : ℕ) : Option ℤ :=
  rejectLoop (specialIds ++ [originalId]) vocabSize draws 0 fuel

/-- Longest example length in a batch. -/
def batchMaxLen (examples : List (List ℤ)) : ℕ :=
  (examples.map List.length).foldr max 0

/-- Modelled from the spec: the external padding collaborator
`transformers.data.data_collator._torch_collate_batch` (spec section 6,
`collate_and_pad`): stacks variable-length sequences into a rectangular batch,
right-padding with `pad_token_id` up to the longest length, rounded up to the
nearest multiple when `pad_to_multiple_of` is given.  The function lives in the
`transformers` dependency, not in this repository. -/
def torch_collate_batch (padId : ℤ) (padToMultipleOf : Option ℕ)
    (examples : List (List ℤ)) : List (List ℤ) :=
  let maxLen := batchMaxLen examples
  let width := match padToMultipleOf with
    | none => maxLen
    | some k => if k = 0 ∨ maxLen % k = 0 then maxLen else (maxLen / k + 1) * k
  examples.map (fun e => e ++ List.replicate (width - e.length) padId)

/-- `DataCollatorForGpt2.__call__` (collators.py lines 187-195): collate the
`input_ids`, then `labels = input_ids.clone()`.  Returns
`(input_ids, labels)`. -/
def gpt2_collate (padId : ℤ) (padToMultipleOf : Option ℕ)
    (examples : List (List ℤ)) : List (List ℤ) × List (List ℤ) :=
  let inputIds := torch_collate_batch padId padToMultipleOf examples
  (inputIds, inputIds)

/-- The padded width used by `pad_for_token_type_ids` (collators.py lines
28-34): the longest example length, rounded up as
`pad_to_multiple_of + (max_len // pad_to_multiple_of) * pad_to_multiple_of`
when it is not already a multiple. -/
def ttidsMaxSeqLen (padToMultipleOf : ℕ) (examples : List (List ℤ)) : ℕ :=
  let maxLen := batchMaxLen examples
  if maxLen % padToMultipleOf = 0 then maxLen
  else padToMultipleOf + (maxLen / padToMultipleOf) * padToMultipleOf

/-- One example's row in `pad_for_token_type_ids` (collators.py lines 36-42):
scan for the first separator that is not in the last position; on a hit emit
`[0] * (idx + 1) + [1] * (max_seq_len - idx - 1)` and stop; if the scan reaches
the last position without a hit emit all zeros; an empty example appends no row
(`none`). -/
def tokenTypeRow (sepId : ℤ) (maxSeqLen : ℕ) (ex : List ℤ) : Option (List ℤ) :=
  match (List.range (ex.length - 1)).find? (fun i => decide (ex.getD i 0 = sepId)) with
  | some i => some (List.replicate (i + 1) 0 ++ List.replicate (maxSeqLen - i - 1) 1)
  | none => if ex.isEmpty then none else some (List.replicate maxSeqLen 0)

/-- `pad_for_token_type_ids` (collators.py lines 20-43). -/
def pad_for_token_type_ids (sepId : ℤ) (padToMultipleOf : ℕ)
    (examples : List (List ℤ)) : List (List ℤ) :=
  examples.filterMap (tokenTypeRow sepId (ttidsMaxSeqLen padToMultipleOf examples))

/-- The noise-mask generation step of `DataCollatorForT5.__call__` (collators.py
lines 317-321): `example_len = len(examples[0])` and one
`_random_spans_noise_mask(example_len)` call per example, each with its own
random bar vectors supplied by `barsFor`. -/
def t5_noise_masks (d m : ℚ) (examples : List (List ℤ))
    (barsFor : ℕ → List Bool × List Bool) : List (Option (List Bool)) :=
  let exampleLen := (examples.headD []).length
  (List.range examples.length).map
    (fun i => random_spans_noise_mask d m exampleLen (barsFor i).1 (barsFor i).2)

/-! ### Evaluation of `pyRound` -/

theorem pyRound_low (q : ℚ) (f : ℤ) (h1 : (f : ℚ) ≤ q) (h2 : q < (f : ℚ) + 1/2) :
    pyRound q = f := by
  have hf : ⌊q⌋ = f := Int.floor_eq_iff.mpr ⟨h1, by linarith⟩
  unfold pyRound
  rw [hf, if_pos (by linarith)]

theorem pyRound_high (q : ℚ) (f : ℤ) (h1 : (f : ℚ) + 1/2 < q) (h2 : q < (f : ℚ) + 1) :
    pyRound q = f + 1 := by
  have hf : ⌊q⌋ = f := Int.floor_eq_iff.mpr ⟨by linarith, h2⟩
  unfold pyRound
  rw [hf, if_neg (by push_neg; linarith), if_pos (by linarith)]

theorem pyRound_half_even (q : ℚ) (f : ℤ) (hq : q = (f : ℚ) + 1/2) (he : f % 2 = 0) :
    pyRound q = f := by
  have hf : ⌊q⌋ = f := Int.floor_eq_iff.mpr ⟨by rw [hq]; linarith, by rw [hq]; linarith⟩
  unfold pyRound
  rw [hf, if_neg (by rw [hq]; push_neg; linarith), if_neg (by rw [hq]; push_neg; linarith),
    if_pos he]

theorem pyRound_half_odd (q : ℚ) (f : ℤ) (hq : q = (f : ℚ) + 1/2) (ho : f % 2 = 1) :
    pyRound q = f + 1 := by
  have hf : ⌊q⌋ = f := Int.floor_eq_iff.mpr ⟨by rw [hq]; linarith, by rw [hq]; linarith⟩
  unfold pyRound
  rw [hf, if_neg (by rw [hq]; push_neg; linarith), if_neg (by rw [hq]; push_neg; linarith),
    if_neg (by omega)]

/-! ### Simple bounds on the clamped counts -/

theorem one_le_numNoiseTokens (d : ℚ) (L : ℕ) : 1 ≤ numNoiseTokens d L := by
  unfold numNoiseTokens
  dsimp only
  generalize pyRound (d * ((max L 2 : ℕ) : ℚ)) = r
  omega

theorem numNoiseTokens_le (d : ℚ) (L : ℕ) : numNoiseTokens d L ≤ max L 2 - 1 := by
  unfold numNoiseTokens
  dsimp only
  generalize pyRound (d * ((max L 2 : ℕ) : ℚ)) = r
  omega

theorem one_le_numNoiseSpans (d m : ℚ) (L : ℕ) : 1 ≤ numNoiseSpans d m L := by
  unfold numNoiseSpans
  generalize pyRound ((numNoiseTokens d L : ℚ) / m) = r
  omega

/-! ### Concrete evaluations of the clamped counts -/

theorem numNoiseTokens_nine_tenths : numNoiseTokens (9/10) 10 = 9 := by
  have h : pyRound ((9/10 : ℚ) * ((max 10 2 : ℕ) : ℚ)) = 9 := by
    rw [show (9/10 : ℚ) * ((max 10 2 : ℕ) : ℚ) = 9 from by norm_num]
    exact pyRound_low 9 9 (by norm_num) (by norm_num)
  unfold numNoiseTokens
  dsimp only
  rw [h]
  omega

theorem numNoiseSpans_nine_tenths : numNoiseSpans (9/10) 3 10 = 3 := by
  have h : pyRound ((numNoiseTokens (9/10) 10 : ℚ) / 3) = 3 := by
    rw [numNoiseTokens_nine_tenths, show ((9 : ℕ) : ℚ) / 3 = 3 from by norm_num]
    exact pyRound_low 3 3 (by norm_num) (by norm_num)
  unfold numNoiseSpans
  rw [h]
  omega

theorem numNoiseTokens_fifteen_pct_ten : numNoiseTokens (15/100) 10 = 2 := by
  have h : pyRound ((15/100 : ℚ) * ((max 10 2 : ℕ) : ℚ)) = 2 := by
    rw [show (15/100 : ℚ) * ((max 10 2 : ℕ) : ℚ) = ((1 : ℤ) : ℚ) + 1/2 from by norm_num]
    exact pyRound_half_odd _ 1 rfl (by decide)
  unfold numNoiseTokens
  dsimp only
  rw [h]
  omega

theorem numNoiseSpans_fifteen_pct_ten : numNoiseSpans (15/100) 3 10 = 1 := by
  have h : pyRound ((numNoiseTokens (15/100) 10 : ℚ) / 3) = 1 := by
    rw [numNoiseTokens_fifteen_pct_ten, show ((2 : ℕ) : ℚ) / 3 = 2/3 from by norm_num]
    exact pyRound_high (2/3) 0 (by norm_num) (by norm_num)
  unfold numNoiseSpans
  rw [h]
  omega

theorem numNoiseTokens_fifteen_pct_one : numNoiseTokens (15/100) 1 = 1 := by
  have h : pyRound ((15/100 : ℚ) * ((max 1 2 : ℕ) : ℚ)) = 0 := by
    rw [show (15/100 : ℚ) * ((max 1 2 : ℕ) : ℚ) = 3/10 from by norm_num]
    exact pyRound_low (3/10) 0 (by norm_num) (by norm_num)
  unfold numNoiseTokens
  dsimp only
  rw [h]
  omega

theorem numNoiseSpans_fifteen_pct_one : numNoiseSpans (15/100) 3 1 = 1 := by
  have h : pyRound ((numNoiseTokens (15/100) 1 : ℚ) / 3) = 0 := by
    rw [numNoiseTokens_fifteen_pct_one, show ((1 : ℕ) : ℚ) / 3 = 1/3 from by norm_num]
    exact pyRound_low (1/3) 0 (by norm_num) (by norm_num)
  unfold numNoiseSpans
  rw [h]
  omega

theorem numNoiseTokens_fifteen_pct_three : numNoiseTokens (15/100) 3 = 1 := by
  have h : pyRound ((15/100 : ℚ) * ((max 3 2 : ℕ) : ℚ)) = 0 := by
    rw [show (15/100 : ℚ) * ((max 3 2 : ℕ) : ℚ) = 45/100 from by norm_num]
    exact pyRound_low (45/100) 0 (by norm_num) (by norm_num)
  unfold numNoiseTokens
  dsimp only
  rw [h]
  omega

theorem numNoiseSpans_fifteen_pct_three : numNoiseSpans (15/100) 3 3 = 1 := by
  have h : pyRound ((numNoiseTokens (15/100) 3 : ℚ) / 3) = 0 := by
    rw [numNoiseTokens_fifteen_pct_three, show ((1 : ℕ) : ℚ) / 3 = 1/3 from by norm_num]
    exact pyRound_low (1/3) 0 (by norm_num) (by norm_num)
  unfold numNoiseSpans
  rw [h]
  omega

/-! ### Prefix-sum basics -/

theorem cumsum_length (l : List ℕ) : (cumsum l).length = l.length := by
  induction l with
  | nil => rfl
  | cons x xs ih => simp [cumsum, ih]

theorem mem_cumsum_le_sum (l : List ℕ) : ∀ c ∈ cumsum l, c ≤ l.sum := by
  induction l with
  | nil => intro c hc; cases hc
  | cons x xs ih =>
    intro c hc
    rcases List.mem_cons.mp hc with rfl | hc
    · simp
    · rw [List.mem_map] at hc
      obtain ⟨y, hy, rfl⟩ := hc
      have := ih y hy
      simp
      omega

theorem one_le_mem_cumsum (l : List ℕ) (hpos : ∀ x ∈ l, 1 ≤ x) :
    ∀ c ∈ cumsum l, 1 ≤ c := by
  induction l with
  | nil => intro c hc; cases hc
  | cons x xs ih =>
    intro c hc
    have hx : 1 ≤ x := hpos x (List.mem_cons_self x xs)
    rcases List.mem_cons.mp hc with rfl | hc
    · exact hx
    · rw [List.mem_map] at hc
      obtain ⟨y, _, rfl⟩ := hc
      omega

theorem cumsum_pairwise_lt (l : List ℕ) (hpos : ∀ x ∈ l, 1 ≤ x) :
    (cumsum l).Pairwise (· < ·) := by
  induction l with
  | nil => exact List.Pairwise.nil
  | cons x xs ih =>
    have hxs : ∀ y ∈ xs, 1 ≤ y := fun y hy => hpos y (List.mem_cons_of_mem x hy)
    refine List.pairwise_cons.mpr ⟨?_, ?_⟩
    · intro c hc
      rw [List.mem_map] at hc
      obtain ⟨y, hy, rfl⟩ := hc
      have := one_le_mem_cumsum xs hxs y hy
      omega
    · exact (ih hxs).map _ (fun a b hab => by omega)

theorem cumsum_dropLast_concat (l : List ℕ) (h : l ≠ []) :
    (cumsum l).dropLast ++ [l.sum] = cumsum l := by
  induction l with
  | nil => exact absurd rfl h
  | cons x xs ih =>
    cases xs with
    | nil => simp [cumsum]
    | cons y ys =>
      have hne : cumsum (y :: ys) ≠ [] := by
        intro hc
        have := cumsum_length (y :: ys)
        rw [hc] at this
        simp at this
      have ih2 := ih (by simp)
      obtain ⟨m, M, hM⟩ : ∃ m M, cumsum (y :: ys) = m :: M :=
        ⟨_, _, rfl⟩
      show ((x :: (cumsum (y :: ys)).map (fun c => x + c)).dropLast ++ [(x :: y :: ys).sum])
          = x :: (cumsum (y :: ys)).map (fun c => x + c)
      rw [hM]
      rw [hM] at ih2
      simp only [List.map_cons, List.dropLast_cons₂, List.cons_append, List.cons.injEq, true_and]
      have : ((m :: M).dropLast).map (fun c => x + c) ++ [x + (y :: ys).sum]
          = ((m :: M).map (fun c => x + c)) := by
        rw [List.map_dropLast]
        have step : ((m :: M).map (fun c => x + c)).dropLast ++ [(x + (y :: ys).sum)]
            = ((m :: M).dropLast ++ [(y :: ys).sum]).map (fun c => x + c) := by
          rw [List.map_append, List.map_dropLast]
          simp
        rw [step, ih2]
      rw [show (x :: y :: ys).sum = x + (y :: ys).sum from by simp]
      simpa using this

theorem cumsum_getElem : ∀ (l : List ℕ) (i : ℕ) (h : i < (cumsum l).length),
    (cumsum l)[i] = (l.take (i + 1)).sum := by
  intro l
  induction l with
  | nil => intro i h; simp [cumsum] at h
  | cons x xs ih =>
    intro i h
    cases i with
    | zero => simp [cumsum]
    | succ i =>
      have h2 : i < (cumsum xs).length := by
        simpa [cumsum, cumsum_length] using h
      simp only [show cumsum (x :: xs) = x :: (cumsum xs).map (fun c => x + c) from rfl,
        List.getElem_cons_succ, List.getElem_map]
      rw [ih i h2]
      simp [List.take_succ_cons]

/-! ### Counting helpers -/

theorem countP_or_disjoint (p q : α → Bool) :
    ∀ (l : List α), (∀ x ∈ l, ¬(p x = true ∧ q x = true)) →
      l.countP (fun x => p x || q x) = l.countP p + l.countP q := by
  intro l
  induction l with
  | nil => intro _; simp
  | cons a t ih =>
    intro h
    have ht := ih (fun x hx => h x (List.mem_cons_of_mem a hx))
    have ha := h a (List.mem_cons_self a t)
    rw [List.countP_cons, List.countP_cons, List.countP_cons, ht]
    cases hp : p a <;> cases hq : q a <;> simp [hp, hq] at ha ⊢ <;> omega

theorem countP_eq_range (a : ℕ) : ∀ (m : ℕ),
    (List.range m).countP (fun j => decide (j = a)) = if a < m then 1 else 0 := by
  intro m
  induction m with
  | zero => simp
  | succ m ih =>
    rw [List.range_succ, List.countP_append, ih, List.countP_singleton]
    simp only [decide_eq_true_eq]
    split_ifs <;> omega

theorem sum_map_toNat_eq_countP (p : α → Bool) : ∀ (l : List α),
    (l.map (fun a => (p a).toNat)).sum = l.countP p := by
  intro l
  induction l with
  | nil => simp
  | cons a t ih =>
    rw [List.map_cons, List.sum_cons, ih, List.countP_cons]
    cases h : p a <;> simp [h] <;> omega

theorem sum_count_range (l : List ℕ) : ∀ (s : ℕ),
    ((List.range s).map (fun k => l.count k)).sum
      = l.countP (fun x => decide (x < s)) := by
  intro s
  induction s with
  | zero =>
    simp only [List.range_zero, List.map_nil, List.sum_nil]
    rw [show (fun (x : ℕ) => decide (x < 0)) = (fun _ => false) from by
      funext x; simp]
    simp
  | succ s ih =>
    rw [List.range_succ, List.map_append, List.sum_append, ih]
    have hsplit : l.countP (fun x => decide (x < s + 1))
        = l.countP (fun x => decide (x < s) || decide (x = s)) := by
      apply List.countP_congr
      intro x _
      simp
      omega
    rw [hsplit, countP_or_disjoint _ _ l (fun x _ => by simp; omega)]
    have hc : l.count s = l.countP (fun x => decide (x = s)) := by
      rw [List.count]
      apply List.countP_congr
      intro x _
      simp
    simp [hc]

theorem countP_mem_range (m : ℕ) : ∀ (s : List ℕ), s.Nodup →
    (List.range m).countP (fun j => decide (j ∈ s))
      = s.countP (fun x => decide (x < m)) := by
  intro s
  induction s with
  | nil => intro _; simp
  | cons a t ih =>
    intro hnd
    rw [List.nodup_cons] at hnd
    obtain ⟨hat, hndt⟩ := hnd
    have hsplit : (List.range m).countP (fun j => decide (j ∈ a :: t))
        = (List.range m).countP (fun j => decide (j = a) || decide (j ∈ t)) := by
      apply List.countP_congr
      intro j _
      simp [List.mem_cons]
    rw [hsplit,
      countP_or_disjoint _ _ (List.range m) (fun j _ => by
        simp only [decide_eq_true_eq]
        rintro ⟨rfl, hj⟩
        exact hat hj),
      countP_eq_range a m, ih hndt, List.countP_cons]
    simp only [decide_eq_true_eq]
    split_ifs <;> omega

theorem take_range_of_le (m S : ℕ) (h : m ≤ S) :
    (List.range S).take m = List.range m := by
  obtain ⟨k, rfl⟩ : ∃ k, S = m + k := ⟨S - m, by omega⟩
  rw [List.range_add, List.take_left' (by simp)]

/-! ### The parity mask and its recursion -/

theorem parityMask_length (ls : List ℕ) : (parityMask ls).length = ls.sum := by
  simp [parityMask]

theorem parityMask_cons (a : ℕ) (ls : List ℕ) :
    parityMask (a :: ls) = List.replicate a false ++ (parityMask ls).map not := by
  unfold parityMask
  rw [show (a :: ls).sum = a + ls.sum from by simp, List.range_add, List.map_append]
  congr 1
  · rw [List.eq_replicate_iff]
    refine ⟨by simp, ?_⟩
    intro b hb
    rw [List.mem_map] at hb
    obtain ⟨i, hi, rfl⟩ := hb
    rw [List.mem_range] at hi
    have hz : (cumsum (a :: ls)).countP (fun s => decide (s ≤ i)) = 0 := by
      show ((a :: (cumsum ls).map (fun c => a + c)).countP (fun s => decide (s ≤ i))) = 0
      rw [List.countP_cons_of_neg _ _ (by simp; omega), List.countP_map]
      rw [show ((fun s => decide (s ≤ i)) ∘ (fun c => a + c)) = (fun _ => false) from by
        funext c; simp; omega]
      simp
    simp [hz]
  · rw [List.map_map, List.map_map]
    apply List.map_congr_left
    intro i _
    have hc : (cumsum (a :: ls)).countP (fun s => decide (s ≤ a + i))
        = 1 + (cumsum ls).countP (fun s => decide (s ≤ i)) := by
      show ((a :: (cumsum ls).map (fun c => a + c)).countP (fun s => decide (s ≤ a + i)))
          = 1 + (cumsum ls).countP (fun s => decide (s ≤ i))
      rw [List.countP_cons_of_pos _ _ (by simp only [decide_eq_true_eq]; omega),
        List.countP_map]
      rw [show ((fun s => decide (s ≤ a + i)) ∘ (fun c => a + c))
          = (fun s => decide (s ≤ i)) from by funext c; simp]
      omega
    simp only [Function.comp_apply, hc]
    rcases Nat.mod_two_eq_zero_or_one ((cumsum ls).countP (fun s => decide (s ≤ i))) with
      h | h
    · simp [Nat.add_mod, h]
    · simp [Nat.add_mod, h]

theorem parityMask_pair (a b : ℕ) (ls : List ℕ) :
    parityMask (a :: b :: ls)
      = List.replicate a false ++ (List.replicate b true ++ parityMask ls) := by
  rw [parityMask_cons, parityMask_cons]
  congr 1
  rw [List.map_append, List.map_replicate, List.map_map]
  simp only [Bool.not_false]
  congr 1
  exact List.map_id'' (fun x => Bool.not_not x) _

/-! ### Counting runs -/

theorem runsAux_cons (prev b : Bool) (t : List Bool) :
    runsAux prev (b :: t) = (if b && !prev then 1 else 0) + runsAux b t := rfl

theorem runsAux_replicate_false (a : ℕ) (h : 1 ≤ a) (t : List Bool) :
    ∀ prev, runsAux prev (List.replicate a false ++ t) = runsAux false t := by
  induction a with
  | zero => omega
  | succ a ih =>
    intro prev
    rw [List.replicate_succ, List.cons_append, runsAux_cons,
      if_neg (by simp : ¬((false && !prev) = true)), Nat.zero_add]
    rcases Nat.eq_zero_or_pos a with rfl | hpos
    · simp
    · rw [ih hpos false]

theorem runsAux_replicate_true (b : ℕ) (t : List Bool) :
    runsAux true (List.replicate b true ++ t) = runsAux true t := by
  induction b with
  | zero => rfl
  | succ b ih =>
    rw [List.replicate_succ, List.cons_append, runsAux_cons]
    simpa using ih

theorem runsAux_false_replicate_true (b : ℕ) (h : 1 ≤ b) (t : List Bool) :
    runsAux false (List.replicate b true ++ t) = 1 + runsAux true t := by
  cases b with
  | zero => omega
  | succ b =>
    rw [List.replicate_succ, List.cons_append, runsAux_cons, runsAux_replicate_true]
    simp

/-! ### Interleaved spans -/

theorem interleave_sum : ∀ (xs ys : List ℕ), xs.length = ys.length →
    (interleave xs ys).sum = xs.sum + ys.sum := by
  intro xs
  induction xs with
  | nil =>
    intro ys h
    cases ys with
    | nil => rfl
    | cons y ys => simp at h
  | cons x xs ih =>
    intro ys h
    cases ys with
    | nil => simp at h
    | cons y ys =>
      show (x :: y :: interleave xs ys).sum = (x :: xs).sum + (y :: ys).sum
      have := ih ys (by simpa using h)
      simp at this ⊢
      omega

theorem interleave_mem : ∀ (xs ys : List ℕ), ∀ z ∈ interleave xs ys, z ∈ xs ∨ z ∈ ys := by
  intro xs
  induction xs with
  | nil => intro ys z hz; cases ys <;> cases hz
  | cons x xs ih =>
    intro ys z hz
    cases ys with
    | nil => cases hz
    | cons y ys =>
      rcases List.mem_cons.mp hz with rfl | hz
      · exact Or.inl (List.mem_cons_self _ _)
      rcases List.mem_cons.mp hz with rfl | hz
      · exact Or.inr (List.mem_cons_self _ _)
      rcases ih ys z hz with h | h
      · exact Or.inl (List.mem_cons_of_mem _ h)
      · exact Or.inr (List.mem_cons_of_mem _ h)

theorem interleave_ne_nil (x y : ℕ) (xs ys : List ℕ) :
    interleave (x :: xs) (y :: ys) ≠ [] := by
  simp [interleave]

theorem count_true_parityMask_interleave : ∀ (xs ys : List ℕ), xs.length = ys.length →
    (parityMask (interleave xs ys)).count true = ys.sum := by
  intro xs
  induction xs with
  | nil =>
    intro ys h
    cases ys with
    | nil => rfl
    | cons y ys => simp at h
  | cons x xs ih =>
    intro ys h
    cases ys with
    | nil => simp at h
    | cons y ys =>
      show (parityMask (x :: y :: interleave xs ys)).count true = (y :: ys).sum
      rw [parityMask_pair, List.count_append, List.count_append,
        List.count_replicate, List.count_replicate, ih ys (by simpa using h)]
      simp

theorem runs_parityMask_interleave : ∀ (xs ys : List ℕ), xs.length = ys.length →
    (∀ z ∈ xs, 1 ≤ z) → (∀ z ∈ ys, 1 ≤ z) →
    ∀ prev, runsAux prev (parityMask (interleave xs ys)) = xs.length := by
  intro xs
  induction xs with
  | nil =>
    intro ys h _ _ prev
    cases ys with
    | nil => rfl
    | cons y ys => simp at h
  | cons x xs ih =>
    intro ys h hx hy prev
    cases ys with
    | nil => simp at h
    | cons y ys =>
      show runsAux prev (parityMask (x :: y :: interleave xs ys)) = (x :: xs).length
      rw [parityMask_pair,
        runsAux_replicate_false x (hx x (List.mem_cons_self _ _)) _ prev,
        runsAux_false_replicate_true y (hy y (List.mem_cons_self _ _)) _,
        ih ys (by simpa using h) (fun z hz => hx z (List.mem_cons_of_mem _ hz))
          (fun z hz => hy z (List.mem_cons_of_mem _ hz)) true]
      simp [List.length_cons]
      omega

/-! ### Random segmentation -/

theorem sum_map_toNat_eq_count_true (l : List Bool) :
    (l.map Bool.toNat).sum = l.count true := by
  rw [show (Bool.toNat : Bool → ℕ) = (fun b => ((fun x : Bool => x) b).toNat) from by
    funext b; cases b <;> rfl]
  rw [sum_map_toNat_eq_countP]
  rw [List.count]
  apply List.countP_congr
  intro b _
  cases b <;> simp

/-- Every segment id of value `1 ≤ k ≤ (number of bars)` is hit at least once
by the cumulative sum of the bar indicators. -/
theorem count_cum01_pos_aux : ∀ (bars : List Bool) (k : ℕ), 1 ≤ k → k ≤ bars.count true →
    1 ≤ (cumsum (bars.map Bool.toNat)).count k := by
  intro bars
  induction bars with
  | nil =>
    intro k h1 h2
    simp at h2
    omega
  | cons b bs ih =>
    intro k h1 h2
    cases b with
    | false =>
      have hrw : cumsum ((false :: bs).map Bool.toNat) = 0 :: cumsum (bs.map Bool.toNat) := by
        show 0 :: (cumsum (bs.map Bool.toNat)).map (fun y => 0 + y) = _
        rw [show (fun (y : ℕ) => 0 + y) = (fun y => y) from by funext y; omega, List.map_id']
      rw [hrw]
      have h2' : k ≤ bs.count true := by simpa using h2
      have := ih k h1 h2'
      rw [List.count_cons]
      omega
    | true =>
      have hrw : cumsum ((true :: bs).map Bool.toNat)
          = 1 :: (cumsum (bs.map Bool.toNat)).map (fun y => 1 + y) := rfl
      rw [hrw]
      rcases Nat.eq_or_lt_of_le h1 with rfl | hk2
      · rw [List.count_cons]
        simp
      · obtain ⟨k', rfl⟩ : ∃ k', k = k' + 1 := ⟨k - 1, by omega⟩
        have h1' : 1 ≤ k' := by omega
        have h2' : k' ≤ bs.count true := by
          have : (true :: bs).count true = bs.count true + 1 := by
            rw [List.count_cons]
            simp
          omega
        have hinj : Function.Injective (fun y : ℕ => 1 + y) := fun u v huv => by
          simpa using huv
        have hmap : ((cumsum (bs.map Bool.toNat)).map (fun y => 1 + y)).count (k' + 1)
            = (cumsum (bs.map Bool.toNat)).count k' := by
          have hx := List.count_map_of_injective (cumsum (bs.map Bool.toNat))
            (fun y : ℕ => 1 + y) hinj k'
          simpa [Nat.add_comm 1 k'] using hx
        rw [List.count_cons, hmap]
        have := ih k' h1' h2'
        omega

theorem count_segId_pos (bars : List Bool) (k : ℕ) (hk : k ≤ bars.count true) :
    1 ≤ (cumsum ((false :: bars).map Bool.toNat)).count k := by
  have hrw : cumsum ((false :: bars).map Bool.toNat)
      = 0 :: cumsum (bars.map Bool.toNat) := by
    show 0 :: (cumsum (bars.map Bool.toNat)).map (fun y => 0 + y) = _
    rw [show (fun (y : ℕ) => 0 + y) = (fun y => y) from by funext y; omega, List.map_id']
  rw [hrw]
  rcases Nat.eq_zero_or_pos k with rfl | h1
  · rw [List.count_cons]
    simp
  · have := count_cum01_pos_aux bars k h1 hk
    rw [List.count_cons]
    omega

theorem segId_le (bars : List Bool) :
    ∀ c ∈ cumsum ((false :: bars).map Bool.toNat), c ≤ bars.count true := by
  intro c hc
  have := mem_cumsum_le_sum _ c hc
  have hsum : ((false :: bars).map Bool.toNat).sum = bars.count true := by
    rw [sum_map_toNat_eq_count_true]
    rw [List.count_cons]
    simp
  omega

theorem randomSegmentation_spec (n s : ℕ) (bars : List Bool)
    (h1 : 1 ≤ s) (h2 : s ≤ n) (hb : validBars n s bars) :
    (randomSegmentation s bars).length = s ∧
      (∀ x ∈ randomSegmentation s bars, 1 ≤ x) ∧
      (randomSegmentation s bars).sum = n := by
  obtain ⟨hlen, hcount⟩ := hb
  have hct : bars.count true = s - 1 := by
    rw [hcount]
    omega
  unfold randomSegmentation
  dsimp only
  refine ⟨by simp, ?_, ?_⟩
  · intro x hx
    rw [List.mem_map] at hx
    obtain ⟨k, hk, rfl⟩ := hx
    rw [List.mem_range] at hk
    exact count_segId_pos bars k (by omega)
  · rw [sum_count_range]
    have hall : ∀ c ∈ cumsum ((false :: bars).map Bool.toNat),
        (fun x => decide (x < s)) c = true := by
      intro c hc
      have := segId_le bars c hc
      simp only [decide_eq_true_eq]
      omega
    rw [List.countP_eq_length.mpr hall, cumsum_length]
    simp [hlen]
    omega

/-! ### The scatter/parity construction equals the parity mask -/

/-- With positive span lengths the boundaries are pairwise distinct and below
the total, so the scatter-indicator/cumsum/parity computation of
`_random_spans_noise_mask` coincides with `parityMask`. -/
theorem codeMask_eq_parityMask (ls : List ℕ) (S : ℕ) (hS : S = ls.sum)
    (hpos : ∀ x ∈ ls, 1 ≤ x) (hne : ls ≠ []) :
    ((cumsum (((List.range S).map
        (fun i => decide (i ∈ (cumsum ls).dropLast))).map Bool.toNat)).map
      (fun c => decide (c % 2 = 1))) = parityMask ls := by
  subst hS
  have hnodup : ((cumsum ls).dropLast).Nodup :=
    (List.Pairwise.sublist (List.dropLast_sublist (cumsum ls))
      (cumsum_pairwise_lt ls hpos)).imp (fun hab => by omega)
  apply List.ext_getElem
  · simp [parityMask, cumsum_length]
  · intro i h1 h2
    have hS : i < ls.sum := by
      rw [parityMask_length] at h2
      exact h2
    have hcount : ((((List.range ls.sum).map
          (fun j => decide (j ∈ (cumsum ls).dropLast))).map Bool.toNat).take (i + 1)).sum
        = (cumsum ls).countP (fun s => decide (s ≤ i)) := by
      rw [List.map_map, ← List.map_take, take_range_of_le (i + 1) ls.sum (by omega)]
      rw [show (Bool.toNat ∘ fun j => decide (j ∈ (cumsum ls).dropLast))
          = (fun j => (decide (j ∈ (cumsum ls).dropLast)).toNat) from rfl]
      rw [sum_map_toNat_eq_countP, countP_mem_range _ _ hnodup]
      have hcongr : ((cumsum ls).dropLast).countP (fun x => decide (x < i + 1))
          = ((cumsum ls).dropLast).countP (fun x => decide (x ≤ i)) :=
        List.countP_congr (fun x _ => by simp only [decide_eq_true_eq]; omega)
      rw [hcongr]
      conv_rhs => rw [← cumsum_dropLast_concat ls hne]
      rw [List.countP_append, List.countP_singleton,
        if_neg (by simp only [decide_eq_true_eq]; omega)]
      omega
    have hlenc : i < (cumsum ((((List.range ls.sum).map
        (fun j => decide (j ∈ (cumsum ls).dropLast))).map Bool.toNat))).length := by
      rw [cumsum_length]
      simpa using hS
    rw [List.getElem_map, cumsum_getElem _ i hlenc, hcount]
    unfold parityMask
    rw [List.getElem_map, List.getElem_range]

/-! ### C1 amended theorem -/

/-- C1 amended: for every length `L ≥ 2`, density `d ∈ (0,1)`, mean span
length `m > 0` and admissible bar shuffles, IF the clamped span count
`s = max(1, round(n/m))` (with `n = min(max(round(d·L),1), L-1)` the clamped
noise count) satisfies `s ≤ n` and `s ≤ L - n`, THEN the planner returns a
mask of length exactly `L` with exactly `n` true positions in exactly `s`
maximal true runs.  (Without the two side conditions, zero-length segments
collapse span boundaries and both counts can drop, as in `C1_counterexample`;
and the span count follows the clamped `n`, not the raw `round(d·L)`.) -/
theorem C1_amended_theorem (L : ℕ) (d m : ℚ) (barsNoise barsNonNoise : List Bool)
    (hL : 2 ≤ L) (hd0 : 0 < d) (hd1 : d < 1) (hm : 0 < m)
    (hsn : numNoiseSpans d m L ≤ numNoiseTokens d L)
    (hsnn : numNoiseSpans d m L ≤ L - numNoiseTokens d L)
    (hbN : validBars (numNoiseTokens d L) (numNoiseSpans d m L) barsNoise)
    (hbNN : validBars (L - numNoiseTokens d L) (numNoiseSpans d m L) barsNonNoise) :
    (random_spans_noise_mask d m L barsNoise barsNonNoise).map
        (fun mask => (mask.length, mask.count true, countTrueRuns mask))
      = some (L, numNoiseTokens d L, numNoiseSpans d m L) := by
  have hmax : max L 2 = L := Nat.max_eq_left hL
  have h1s : 1 ≤ numNoiseSpans d m L := one_le_numNoiseSpans d m L
  have h1t : 1 ≤ numNoiseTokens d L := one_le_numNoiseTokens d L
  have htle : numNoiseTokens d L ≤ L - 1 := by
    have := numNoiseTokens_le d L
    omega
  unfold random_spans_noise_mask
  dsimp only
  obtain ⟨hNlen, hNpos, hNsum⟩ :=
    randomSegmentation_spec (numNoiseTokens d L) _ barsNoise h1s hsn hbN
  obtain ⟨hMlen, hMpos, hMsum⟩ :=
    randomSegmentation_spec (L - numNoiseTokens d L) _ barsNonNoise h1s hsnn hbNN
  set nl := randomSegmentation (numNoiseSpans d m L) barsNoise with hnl
  set ml := randomSegmentation (numNoiseSpans d m L) barsNonNoise with hml
  have hlen_eq : ml.length = nl.length := by rw [hNlen, hMlen]
  have hinter_pos : ∀ z ∈ interleave ml nl, 1 ≤ z := fun z hz =>
    (interleave_mem _ _ z hz).elim (hMpos z) (hNpos z)
  have hinter_sum : (interleave ml nl).sum = L := by
    rw [interleave_sum _ _ hlen_eq, hNsum, hMsum]
    omega
  have hinter_ne : interleave ml nl ≠ [] := by
    intro hc
    rw [hc] at hinter_sum
    simp at hinter_sum
    omega
  have hstarts_lt : ∀ st ∈ (cumsum (interleave ml nl)).dropLast, st < max L 2 := by
    intro st hst
    have hpw := cumsum_pairwise_lt _ hinter_pos
    rw [← cumsum_dropLast_concat _ hinter_ne] at hpw
    have := (List.pairwise_append.mp hpw).2.2 st hst _ (List.mem_singleton_self _)
    omega
  have hguard : ((cumsum (interleave ml nl)).dropLast.all
      (fun st => decide (st < max L 2))) = true := by
    rw [List.all_eq_true]
    intro st hst
    simpa using hstarts_lt st hst
  rw [if_pos hguard, Option.map_some', Option.some.injEq]
  have hbridge := codeMask_eq_parityMask (interleave ml nl) (max L 2)
    (by omega) hinter_pos hinter_ne
  rw [hbridge]
  have htake : (parityMask (interleave ml nl)).take L = parityMask (interleave ml nl) :=
    List.take_of_length_le (by rw [parityMask_length]; omega)
  rw [htake]
  refine Prod.ext ?_ (Prod.ext ?_ ?_)
  · show (parityMask (interleave ml nl)).length = L
    rw [parityMask_length]
    exact hinter_sum
  · show (parityMask (interleave ml nl)).count true = numNoiseTokens d L
    rw [count_true_parityMask_interleave _ _ hlen_eq, hNsum]
  · show countTrueRuns (parityMask (interleave ml nl)) = numNoiseSpans d m L
    unfold countTrueRuns
    rw [runs_parityMask_interleave _ _ hlen_eq hMpos hNpos false, hMlen]

/-- C1 witness: `L = 10`, `d = 0.15`, `m = 3` (the defaults), with the unique
admissible bar vectors: 2 noise tokens in 1 span, 8 non-noise tokens. -/
theorem C1_witness :
    2 ≤ 10 ∧ (0 : ℚ) < 15/100 ∧ (15/100 : ℚ) < 1 ∧ (0 : ℚ) < 3 ∧
    numNoiseSpans (15/100) 3 10 ≤ numNoiseTokens (15/100) 10 ∧
    numNoiseSpans (15/100) 3 10 ≤ 10 - numNoiseTokens (15/100) 10 ∧
    validBars (numNoiseTokens (15/100) 10) (numNoiseSpans (15/100) 3 10) [false] ∧
    validBars (10 - numNoiseTokens (15/100) 10) (numNoiseSpans (15/100) 3 10)
      [false, false, false, false, false, false, false] ∧
    (random_spans_noise_mask (15/100) 3 10 [false]
        [false, false, false, false, false, false, false]).map
        (fun mask => (mask.length, mask.count true, countTrueRuns mask))
      = some (10, numNoiseTokens (15/100) 10, numNoiseSpans (15/100) 3 10) :=
  ⟨by norm_num, by norm_num, by norm_num, by norm_num,
    by rw [numNoiseSpans_fifteen_pct_ten, numNoiseTokens_fifteen_pct_ten]; decide,
    by rw [numNoiseSpans_fifteen_pct_ten, numNoiseTokens_fifteen_pct_ten]; decide,
    by rw [numNoiseSpans_fifteen_pct_ten, numNoiseTokens_fifteen_pct_ten]; decide,
    by rw [numNoiseSpans_fifteen_pct_ten, numNoiseTokens_fifteen_pct_ten]; decide,
    C1_amended_theorem 10 (15/100) 3 [false] [false, false, false, false, false, false, false]
      (by norm_num) (by norm_num) (by norm_num) (by norm_num)
      (by rw [numNoiseSpans_fifteen_pct_ten, numNoiseTokens_fifteen_pct_ten]; decide)
      (by rw [numNoiseSpans_fifteen_pct_ten, numNoiseTokens_fifteen_pct_ten]; decide)
      (by rw [numNoiseSpans_fifteen_pct_ten, numNoiseTokens_fifteen_pct_ten]; decide)
      (by rw [numNoiseSpans_fifteen_pct_ten, numNoiseTokens_fifteen_pct_ten]; decide)⟩

/-! ### C10: batch masks are sized to the first example -/

/-- Whenever the planner returns a mask it has exactly the requested length. -/
theorem random_spans_noise_mask_length (d m : ℚ) (L : ℕ) (b1 b2 : List Bool)
    (mask : List Bool) (h : random_spans_noise_mask d m L b1 b2 = some mask) :
    mask.length = L := by
  unfold random_spans_noise_mask at h
  dsimp only at h
  split at h
  · obtain rfl : _ = mask := Option.some.inj h
    rw [List.length_take, List.length_map, cumsum_length, List.length_map,
      List.length_map, List.length_range]
    omega
  · cases h

/-- C10: in `DataCollatorForT5.__call__` every noise mask of a batch is built
from the length of the FIRST example: the `i`-th example's mask always has
length `len(examples[0])`, whatever the `i`-th example's own length is. -/
theorem C10_theorem (d m : ℚ) (examples : List (List ℤ))
    (barsFor : ℕ → List Bool × List Bool) (i : ℕ) (mask : List Bool)
    (hi : i < examples.length)
    (hmask : (t5_noise_masks d m examples barsFor).getD i none = some mask) :
    mask.length = (examples.headD []).length := by
  unfold t5_noise_masks at hmask
  dsimp only at hmask
  rw [List.getD_eq_getElem?_getD, List.getElem?_map, List.getElem?_range hi] at hmask
  exact random_spans_noise_mask_length d m _ _ _ mask hmask

/-- C10 witness: a two-example batch whose second example is shorter; its mask
still has the first example's length 3. -/
theorem C10_witness :
    1 < ([[1, 2, 3], [4, 5]] : List (List ℤ)).length ∧
    (t5_noise_masks (15/100) 3 [[1, 2, 3], [4, 5]]
        (fun _ => ([], [false]))).getD 1 none = some [false, false, true] ∧
    ([false, false, true] : List Bool).length
      = (([[1, 2, 3], [4, 5]] : List (List ℤ)).headD []).length := by
  have hmask : random_spans_noise_mask (15/100) 3 3 [] [false]
      = some [false, false, true] := by
    unfold random_spans_noise_mask
    rw [numNoiseSpans_fifteen_pct_three]
    decide
  have hEval : (t5_noise_masks (15/100) 3 [[1, 2, 3], [4, 5]]
      (fun _ => ([], [false]))).getD 1 none = some [false, false, true] := by
    rw [show (t5_noise_masks (15/100) 3 [[1, 2, 3], [4, 5]]
        (fun _ => ([], [false]))).getD 1 none
      = random_spans_noise_mask (15/100) 3 3 [] [false] from rfl]
    exact hmask
  exact ⟨by decide, hEval,
    C10_theorem (15/100) 3 [[1, 2, 3], [4, 5]] (fun _ => ([], [false])) 1
      [false, false, true] (by decide) hEval⟩

/-! ### C1 counterexample -/

/-- C1 counterexample: at `L = 10`, `d = 0.9`, `m = 3` the clamped noise count
is 9 and the span count is 3, leaving a single non-noise token for 3 non-noise
segments; the zero-length segments make span boundaries collide, so for the
(reachable) identity shuffle of the noise bars the returned mask has 8 true
positions in 2 runs instead of the claimed 9 in 3. -/
theorem C1_counterexample :
    random_spans_noise_mask (9/10) 3 10
        [true, true, false, false, false, false, false, false] []
      = some [false, true, false, true, true, true, true, true, true, true] ∧
    [false, true, false, true, true, true, true, true, true, true].count true = 8 ∧
    numNoiseTokens (9/10) 10 = 9 ∧
    countTrueRuns [false, true, false, true, true, true, true, true, true, true] = 2 ∧
    numNoiseSpans (9/10) 3 10 = 3 ∧
    validBars (numNoiseTokens (9/10) 10) (numNoiseSpans (9/10) 3 10)
      [true, true, false, false, false, false, false, false] ∧
    validBars (max 10 2 - numNoiseTokens (9/10) 10) (numNoiseSpans (9/10) 3 10) [] := by
  refine ⟨?_, by decide, numNoiseTokens_nine_tenths, by decide, numNoiseSpans_nine_tenths,
    ?_, ?_⟩
  · unfold random_spans_noise_mask
    rw [numNoiseSpans_nine_tenths]
    decide
  · rw [numNoiseTokens_nine_tenths, numNoiseSpans_nine_tenths]
    exact ⟨by decide, by decide⟩
  · rw [numNoiseTokens_nine_tenths, numNoiseSpans_nine_tenths]
    exact ⟨by decide, by decide⟩

/-! ### C4: the sentence-order split pivot -/

/-- C4 counterexample: the claim says the pivot is drawn uniformly from
`[n//3, 2*n//3)`, but for a chunk of length 11 the code passes
`randrange(11//3, 11//3*2) = randrange(3, 6)` while `2*11//3 = 7`: the value 6
of the claimed interval `[3, 7)` is never drawn. -/
theorem C4_counterexample :
    sop_split_bounds 11 = (3, 6) ∧ 2 * 11 / 3 = 7 ∧
      sop_split_position 11 2 = some 5 := by decide

/-- C4 amended: for every chunk length `n ≥ 3` the split position is drawn
uniformly from the half-open interval `[n//3, (n//3)*2)` (every draw lands in
it, and every value of it is reachable); this equals the claimed
`[n//3, 2*n//3)` only when `n % 3 ≠ 2`.  Both `DataCollatorForBert` and
`DataCollatorForAlbert` compute the identical bounds `sop_split_bounds`. -/
theorem C4_amended_theorem (n r v : ℕ) (h3 : 3 ≤ n)
    (hv1 : n / 3 ≤ v) (hv2 : v < n / 3 * 2) :
    (sop_split_position n r).map (fun p => decide (n / 3 ≤ p ∧ p < n / 3 * 2)) = some true ∧
    sop_split_position n (v - n / 3) = some v := by
  have hpos : 0 < n / 3 := by omega
  have hne : ¬ (n / 3 * 2 ≤ n / 3) := by omega
  unfold sop_split_position sop_split_bounds
  dsimp only
  rw [if_neg hne, if_neg hne]
  constructor
  · have hm : r % (n / 3 * 2 - n / 3) < n / 3 * 2 - n / 3 := Nat.mod_lt _ (by omega)
    simp only [Option.map_some', Option.some.injEq, decide_eq_true_eq]
    omega
  · have hm : (v - n / 3) % (n / 3 * 2 - n / 3) = v - n / 3 :=
      Nat.mod_eq_of_lt (by omega)
    rw [hm, Option.some.injEq]
    omega

/-- C4 witness: at `n = 9` every draw lands in `[3, 6)` and the value 4 is
reachable. -/
theorem C4_witness :
    3 ≤ 9 ∧ 9 / 3 ≤ 4 ∧ 4 < 9 / 3 * 2 ∧
      ((sop_split_position 9 5).map (fun p => decide (9 / 3 ≤ p ∧ p < 9 / 3 * 2)) = some true ∧
        sop_split_position 9 (4 - 9 / 3) = some 4) :=
  ⟨by decide, by decide, by decide, C4_amended_theorem 9 5 4 (by decide) (by decide) (by decide)⟩

/-! ### C5: behaviour of the planner on a length-1 sequence -/

/-- C5 counterexample: for a length-1 input the planner does not fail; it
silently returns the length-1 all-false mask (no noise position at all),
contradicting the claimed `InvalidExampleError`. -/
theorem C5_counterexample :
    random_spans_noise_mask (15/100) 3 1 [] [] = some [false] ∧
      [false].count true = 0 := by
  refine ⟨?_, by decide⟩
  unfold random_spans_noise_mask
  rw [numNoiseSpans_fifteen_pct_one]
  decide

/-- C5 amended: on a length-1 input (for any density and any mean span length
whose clamped span count is 1, e.g. the defaults) the planner clamps the
working length to 2, builds the mask `[false, true]` and silently returns its
first element: the degenerate all-false mask `[false]`.  No exception type
exists in the code. -/
theorem C5_amended_theorem (d m : ℚ) (h : numNoiseSpans d m 1 = 1) :
    random_spans_noise_mask d m 1 [] [] = some [false] := by
  unfold random_spans_noise_mask
  rw [h]
  decide

/-- C5 witness: the default configuration `d = 0.15`, `m = 3`. -/
theorem C5_witness :
    numNoiseSpans (15/100) 3 1 = 1 ∧
      random_spans_noise_mask (15/100) 3 1 [] [] = some [false] :=
  ⟨numNoiseSpans_fifteen_pct_one, C5_amended_theorem (15/100) 3 numNoiseSpans_fifteen_pct_one⟩

/-! ### C6 and C7: the fake-token rejection sampler -/

/-- C6 counterexample: with a forbidden set `{0, 1}` covering the whole
two-id vocabulary, the sampler is still looping after 100 rejected draws; no
`ConfigurationError` (or any other failure value) exists in the code. -/
theorem C6_counterexample :
    fake_input_id [0, 1] 0 2 (fun i => i) 100 = none := by decide

/-- C6 amended: the rejection loop does not fail fast; whenever the forbidden
id set (all special-token ids plus the original id) covers the entire
vocabulary `[0, vocab_size)`, every draw is rejected and the loop never
returns, for every draw stream and every amount of fuel. -/
theorem C6_amended_theorem (specialIds : List ℤ) (originalId : ℤ) (vocabSize : ℕ)
    (draws : ℕ → ℕ) (fuel : ℕ)
    (hcov : ∀ k : ℕ, k < vocabSize → (k : ℤ) ∈ specialIds ++ [originalId])
    (hv : 0 < vocabSize) :
    fake_input_id specialIds originalId vocabSize draws fuel = none := by
  unfold fake_input_id
  suffices h : ∀ fuel i, rejectLoop (specialIds ++ [originalId]) vocabSize draws i fuel = none by
    exact h fuel 0
  intro fuel
  induction fuel with
  | zero =>
    intro i
    unfold rejectLoop
    rw [if_pos (hcov _ (Nat.mod_lt _ hv))]
  | succ f ih =>
    intro i
    unfold rejectLoop
    rw [if_pos (hcov _ (Nat.mod_lt _ hv))]
    exact ih (i + 1)

/-- C6 witness: a concrete covering configuration, another draw stream and
another fuel amount. -/
theorem C6_witness :
    0 < 2 ∧ fake_input_id [0, 1] 0 2 (fun i => i + 1) 5 = none :=
  ⟨by decide, C6_amended_theorem [0, 1] 0 2 (fun i => i + 1) 5
    (by decide) (by decide)⟩

/-- Any value the rejection loop returns is a vocabulary id outside the
forbidden set. -/
theorem rejectLoop_some (forbiddenIds : List ℤ) (vocabSize : ℕ) (draws : ℕ → ℕ)
    (hv : 0 < vocabSize) :
    ∀ fuel i c, rejectLoop forbiddenIds vocabSize draws i fuel = some c →
      0 ≤ c ∧ c < (vocabSize : ℤ) ∧ c ∉ forbiddenIds := by
  intro fuel
  induction fuel with
  | zero =>
    intro i c h
    unfold rejectLoop at h
    by_cases hmem : ((draws i % vocabSize : ℕ) : ℤ) ∈ forbiddenIds
    · rw [if_pos hmem] at h
      cases h
    · rw [if_neg hmem] at h
      obtain rfl : ((draws i % vocabSize : ℕ) : ℤ) = c := Option.some.inj h
      exact ⟨Int.natCast_nonneg _, by exact_mod_cast Nat.mod_lt _ hv, hmem⟩
  | succ f ih =>
    intro i c h
    unfold rejectLoop at h
    by_cases hmem : ((draws i % vocabSize : ℕ) : ℤ) ∈ forbiddenIds
    · rw [if_pos hmem] at h
      exact ih (i + 1) c h
    · rw [if_neg hmem] at h
      obtain rfl : ((draws i % vocabSize : ℕ) : ℤ) = c := Option.some.inj h
      exact ⟨Int.natCast_nonneg _, by exact_mod_cast Nat.mod_lt _ hv, hmem⟩

/-- C7: whenever `_fake_input_id` returns, the returned id lies in
`[0, vocab_size)`, differs from the original id, and is no special-token id —
for every draw stream, every fuel amount, every original id and every
non-empty vocabulary. -/
theorem C7_theorem (specialIds : List ℤ) (originalId : ℤ) (vocabSize : ℕ)
    (draws : ℕ → ℕ) (fuel : ℕ) (fakeId : ℤ)
    (hv : 0 < vocabSize)
    (h : fake_input_id specialIds originalId vocabSize draws fuel = some fakeId) :
    0 ≤ fakeId ∧ fakeId < (vocabSize : ℤ) ∧ fakeId ≠ originalId ∧ fakeId ∉ specialIds := by
  obtain ⟨h0, h1, h2⟩ := rejectLoop_some (specialIds ++ [originalId]) vocabSize draws hv fuel 0 fakeId h
  refine ⟨h0, h1, ?_, ?_⟩
  · intro hc
    exact h2 (List.mem_append.mpr (Or.inr (by simp [hc])))
  · intro hc
    exact h2 (List.mem_append.mpr (Or.inl hc))

/-- C7 witness: vocabulary `{0,…,4}`, special ids `{0, 1}`, original id 2, a
stream that draws 3 first. -/
theorem C7_witness :
    0 < 5 ∧ fake_input_id [0, 1] 2 5 (fun _ => 3) 1 = some 3 ∧
      (0 ≤ (3 : ℤ) ∧ (3 : ℤ) < (5 : ℕ) ∧ (3 : ℤ) ≠ 2 ∧ (3 : ℤ) ∉ ([0, 1] : List ℤ)) :=
  ⟨by decide, by decide,
    C7_theorem [0, 1] 2 5 (fun _ => 3) 1 3 (by decide) (by decide)⟩

/-! ### C8: the causal-LM collator -/

/-- Every example's length is bounded by the batch maximum. -/
theorem length_le_batchMaxLen (examples : List (List ℤ)) :
    ∀ e ∈ examples, e.length ≤ batchMaxLen examples := by
  unfold batchMaxLen
  induction examples with
  | nil => intro e he; cases he
  | cons x xs ih =>
    intro e he
    rcases List.mem_cons.mp he with rfl | he
    · exact Nat.le_max_left _ _
    · exact le_trans (ih e he) (Nat.le_max_right _ _)

/-- C8: for every batch, the labels returned by `DataCollatorForGpt2.__call__`
are exactly the padded `input_ids` (a `clone`, so equal even at pad positions,
with no ignore-value substitution), for every `pad_to_multiple_of`
configuration; and with the default `pad_to_multiple_of=None` every sequence is
right-padded with the pad id to exactly the length of the longest sequence. -/
theorem C8_theorem (padId : ℤ) (padToMultipleOf : Option ℕ) (examples : List (List ℤ)) :
    (gpt2_collate padId padToMultipleOf examples).2 =
        (gpt2_collate padId padToMultipleOf examples).1 ∧
    (gpt2_collate padId none examples).1 =
      examples.map (fun e => e ++ List.replicate (batchMaxLen examples - e.length) padId) ∧
    ((gpt2_collate padId none examples).1).map List.length =
      examples.map (fun _ => batchMaxLen examples) := by
  refine ⟨rfl, rfl, ?_⟩
  rw [show (gpt2_collate padId none examples).1 =
      examples.map (fun e => e ++ List.replicate (batchMaxLen examples - e.length) padId)
    from rfl]
  rw [List.map_map]
  apply List.map_congr_left
  intro e he
  have hle := length_le_batchMaxLen examples e he
  simp only [Function.comp_apply, List.length_append, List.length_replicate]
  omega

/-! ### Sentinel encoder: structural recursion of the vectorized core -/

theorem firstNoiseVec_cons (m prev0 : Bool) (ms : List Bool) :
    firstNoiseVec (m :: ms) prev0 = (m && !prev0) :: firstNoiseVec ms m := by
  cases ms with
  | nil => rfl
  | cons y ys => rfl

theorem subseqNoiseVec_cons (m prev0 : Bool) (ms : List Bool) :
    subseqNoiseVec (m :: ms) prev0 = (m && prev0) :: subseqNoiseVec ms m := by
  cases ms with
  | nil => rfl
  | cons y ys => rfl

theorem firstNoiseVec_length (mask : List Bool) (prev0 : Bool) :
    (firstNoiseVec mask prev0).length = mask.length := by
  cases mask with
  | nil => rfl
  | cons m ms =>
    unfold firstNoiseVec
    rw [List.length_zipWith]
    simp [List.length_dropLast]

theorem sentinelVec_cons (V : ℤ) (m prev0 : Bool) (ms : List Bool) (k0 : ℕ) :
    sentinelVec V (m :: ms) prev0 k0
      = (V + 1 - ((k0 + (m && !prev0).toNat : ℕ) : ℤ))
        :: sentinelVec V ms m (k0 + (m && !prev0).toNat) := by
  unfold sentinelVec
  rw [firstNoiseVec_cons, List.map_cons]
  rw [show cumsum ((m && !prev0).toNat :: (firstNoiseVec ms m).map Bool.toNat)
      = (m && !prev0).toNat
        :: (cumsum ((firstNoiseVec ms m).map Bool.toNat)).map
          (fun y => (m && !prev0).toNat + y) from rfl]
  rw [List.map_cons, List.map_map]
  congr 1
  apply List.map_congr_left
  intro c _
  simp only [Function.comp_apply]
  congr 1
  push_cast
  ring

theorem sentinelVec_length (V : ℤ) (mask : List Bool) (prev0 : Bool) (k0 : ℕ) :
    (sentinelVec V mask prev0 k0).length = mask.length := by
  unfold sentinelVec
  rw [List.length_map, cumsum_length, List.length_map, firstNoiseVec_length]

theorem sum_map_toNat_le_length (l : List Bool) : (l.map Bool.toNat).sum ≤ l.length := by
  rw [sum_map_toNat_eq_count_true]
  exact List.count_le_length true l

theorem sentinelVec_ge (V : ℤ) (mask : List Bool) (prev0 : Bool) (k0 : ℕ) :
    ∀ x ∈ sentinelVec V mask prev0 k0,
      V + 1 - ((k0 + mask.length : ℕ) : ℤ) ≤ x := by
  intro x hx
  unfold sentinelVec at hx
  rw [List.mem_map] at hx
  obtain ⟨c, hc, rfl⟩ := hx
  have h1 := mem_cumsum_le_sum _ c hc
  have h2 := sum_map_toNat_le_length (firstNoiseVec mask prev0)
  rw [firstNoiseVec_length] at h2
  have : c ≤ mask.length := le_trans h1 h2
  have hcast : ((k0 + c : ℕ) : ℤ) ≤ ((k0 + mask.length : ℕ) : ℤ) := by
    exact_mod_cast Nat.add_le_add_left this k0
  omega

theorem vecCore_cons (V : ℤ) (t : ℤ) (ts : List ℤ) (m prev0 : Bool)
    (ms : List Bool) (k0 : ℕ) :
    vecCore V (t :: ts) (m :: ms) prev0 k0
      = (if m && !prev0 then [V + 1 - ((k0 + 1 : ℕ) : ℤ)]
          else if m && prev0 then [] else [t])
        ++ vecCore V ts ms m (k0 + (m && !prev0).toNat) := by
  unfold vecCore
  rw [firstNoiseVec_cons, subseqNoiseVec_cons, sentinelVec_cons]
  cases m <;> cases prev0 <;>
    simp [zipWith3, List.zip_cons_cons, List.filterMap_cons]

theorem maskSelect_cons (b m : Bool) (ms : List Bool) (t : ℤ) (ts : List ℤ) :
    maskSelect b (m :: ms) (t :: ts)
      = (if m = b then [t] else []) ++ maskSelect b ms ts := by
  unfold maskSelect
  by_cases h : m = b <;> simp [List.zip_cons_cons, List.filterMap_cons, h]

theorem vecCore_cons_false (V t : ℤ) (ts : List ℤ) (prev0 : Bool)
    (ms : List Bool) (k0 : ℕ) :
    vecCore V (t :: ts) (false :: ms) prev0 k0 = t :: vecCore V ts ms false k0 := by
  rw [vecCore_cons]
  simp

theorem vecCore_cons_first (V t : ℤ) (ts : List ℤ) (ms : List Bool) (k0 : ℕ) :
    vecCore V (t :: ts) (true :: ms) false k0
      = (V + 1 - ((k0 + 1 : ℕ) : ℤ)) :: vecCore V ts ms true (k0 + 1) := by
  rw [vecCore_cons]
  simp

theorem vecCore_cons_subseq (V t : ℤ) (ts : List ℤ) (ms : List Bool) (k0 : ℕ) :
    vecCore V (t :: ts) (true :: ms) true k0 = vecCore V ts ms true k0 := by
  rw [vecCore_cons]
  simp

/-- Stripping the reserved sentinel range from the core output recovers
exactly the non-noise tokens, provided every token id lies below the range. -/
theorem filter_lt_vecCore (V T : ℤ) : ∀ (ms : List Bool) (ts : List ℤ) (prev0 : Bool) (k0 : ℕ),
    ts.length = ms.length →
    (∀ x ∈ ts, x < T) →
    T ≤ V + 1 - ((k0 + ms.length : ℕ) : ℤ) →
    (vecCore V ts ms prev0 k0).filter (fun x => decide (x < T))
      = maskSelect false ms ts := by
  intro ms
  induction ms with
  | nil =>
    intro ts prev0 k0 hlen _ _
    obtain rfl := List.length_eq_zero.mp hlen
    rfl
  | cons m ms ih =>
    intro ts prev0 k0 hlen htok hT
    cases ts with
    | nil => simp at hlen
    | cons t ts =>
      have hlen' : ts.length = ms.length := by simpa using hlen
      have htok' : ∀ x ∈ ts, x < T := fun x hx => htok x (List.mem_cons_of_mem _ hx)
      have ht : t < T := htok t (List.mem_cons_self _ _)
      have hcast : ((k0 + (m :: ms).length : ℕ) : ℤ) = (k0 : ℤ) + ms.length + 1 := by
        push_cast
        simp [List.length_cons]
        ring
      have hT0 : T ≤ V + 1 - ((k0 + ms.length : ℕ) : ℤ) := by
        push_cast at hcast ⊢
        omega
      have hT1 : T ≤ V + 1 - (((k0 + 1) + ms.length : ℕ) : ℤ) := by
        push_cast at hcast ⊢
        omega
      cases m with
      | false =>
        rw [vecCore_cons_false, maskSelect_cons, List.filter_cons_of_pos (by simpa using ht),
          ih ts false k0 hlen' htok' hT0]
        simp
      | true =>
        cases prev0 with
        | false =>
          have hsent : ¬ (V + 1 - ((k0 + 1 : ℕ) : ℤ) < T) := by
            push_cast at hcast ⊢
            omega
          rw [vecCore_cons_first, maskSelect_cons,
            List.filter_cons_of_neg (by simpa using hsent),
            ih ts true (k0 + 1) hlen' htok' hT1]
          simp
        | true =>
          rw [vecCore_cons_subseq, maskSelect_cons,
            ih ts true k0 hlen' htok' hT0]
          simp

/-- Keeping only the reserved sentinel range from the core output yields
exactly the run of consecutive sentinel ids, one per first-noise position. -/
theorem filter_ge_vecCore (V T : ℤ) : ∀ (ms : List Bool) (ts : List ℤ) (prev0 : Bool) (k0 : ℕ),
    ts.length = ms.length →
    (∀ x ∈ ts, x < T) →
    T ≤ V + 1 - ((k0 + ms.length : ℕ) : ℤ) →
    (vecCore V ts ms prev0 k0).filter (fun x => decide (T ≤ x))
      = (List.range (runsAux prev0 ms)).map (fun j => V - ((k0 + j : ℕ) : ℤ)) := by
  intro ms
  induction ms with
  | nil =>
    intro ts prev0 k0 hlen _ _
    obtain rfl := List.length_eq_zero.mp hlen
    rfl
  | cons m ms ih =>
    intro ts prev0 k0 hlen htok hT
    cases ts with
    | nil => simp at hlen
    | cons t ts =>
      have hlen' : ts.length = ms.length := by simpa using hlen
      have htok' : ∀ x ∈ ts, x < T := fun x hx => htok x (List.mem_cons_of_mem _ hx)
      have ht : ¬ (T ≤ t) := by
        have := htok t (List.mem_cons_self _ _)
        omega
      have hcast : ((k0 + (m :: ms).length : ℕ) : ℤ) = (k0 : ℤ) + ms.length + 1 := by
        push_cast
        simp [List.length_cons]
        ring
      have hT0 : T ≤ V + 1 - ((k0 + ms.length : ℕ) : ℤ) := by
        push_cast at hcast ⊢
        omega
      have hT1 : T ≤ V + 1 - (((k0 + 1) + ms.length : ℕ) : ℤ) := by
        push_cast at hcast ⊢
        omega
      cases m with
      | false =>
        rw [vecCore_cons_false, List.filter_cons_of_neg (by simpa using ht),
          ih ts false k0 hlen' htok' hT0, runsAux_cons]
        simp
      | true =>
        cases prev0 with
        | false =>
          have hsent : T ≤ V + 1 - ((k0 + 1 : ℕ) : ℤ) := by
            push_cast at hcast ⊢
            omega
          rw [vecCore_cons_first, List.filter_cons_of_pos (by simpa using hsent),
            ih ts true (k0 + 1) hlen' htok' hT1, runsAux_cons]
          rw [show (if (true && !false) = true then 1 else 0) + runsAux true ms
              = runsAux true ms + 1 from by
                rw [if_pos (show (true && !false) = true from by decide)]
                omega]
          rw [List.range_succ_eq_map, List.map_cons, List.map_map]
          congr 1
          · push_cast
            ring
          · apply List.map_congr_left
            intro j _
            simp only [Function.comp_apply]
            congr 1
            push_cast
            ring
        | true =>
          rw [vecCore_cons_subseq, ih ts true k0 hlen' htok' hT0, runsAux_cons]
          simp

/-- The no-append call of `_noise_span_to_unique_sentinel` on equal-length
inputs: the sentinel-replacement core followed by the eos token. -/
theorem noise_span_spec_false (V eosId : ℤ) (tokens : List ℤ) (mask : List Bool)
    (hlen : tokens.length = mask.length) :
    noise_span_to_unique_sentinel V eosId tokens mask false
      = some (vecCore V tokens mask false 0 ++ [eosId]) := by
  unfold noise_span_to_unique_sentinel
  rw [if_pos hlen]
  rfl

theorem listMin_foldl_mem : ∀ (xs : List ℤ) (a : ℤ),
    xs.foldl min a = a ∨ xs.foldl min a ∈ xs := by
  intro xs
  induction xs with
  | nil => intro a; left; rfl
  | cons x xs ih =>
    intro a
    rw [List.foldl_cons]
    rcases ih (min a x) with h | h
    · rcases min_choice a x with h2 | h2
      · left
        rw [h, h2]
      · right
        rw [h, h2]
        exact List.mem_cons_self _ _
    · right
      exact List.mem_cons_of_mem _ h

/-- The append-final-sentinel call of `_noise_span_to_unique_sentinel` on
equal-length nonempty inputs: the core, then `sentinel.min() - 1`, then eos. -/
theorem noise_span_spec_true (V eosId : ℤ) (tokens : List ℤ) (mask : List Bool)
    (hlen : tokens.length = mask.length) (hne : mask ≠ []) :
    ∃ mn, mn ∈ sentinelVec V mask false 0 ∧
      noise_span_to_unique_sentinel V eosId tokens mask true
        = some (vecCore V tokens mask false 0 ++ [mn - 1] ++ [eosId]) := by
  obtain ⟨x, xs, hx⟩ : ∃ x xs, sentinelVec V mask false 0 = x :: xs := by
    cases hsv : sentinelVec V mask false 0 with
    | nil =>
      exfalso
      have := sentinelVec_length V mask false 0
      rw [hsv] at this
      exact hne (List.length_eq_zero.mp this.symm)
    | cons x xs => exact ⟨x, xs, rfl⟩
  refine ⟨xs.foldl min x, ?_, ?_⟩
  · rw [hx]
    rcases listMin_foldl_mem xs x with h | h
    · rw [h]
      exact List.mem_cons_self _ _
    · exact List.mem_cons_of_mem _ h
  · unfold noise_span_to_unique_sentinel
    rw [if_pos hlen, hx]
    rfl

/-! ### C2: sentinel ids decrease by exactly one -/

theorem one_le_countTrueRuns : ∀ (mask : List Bool), true ∈ mask →
    1 ≤ countTrueRuns mask := by
  intro mask
  unfold countTrueRuns
  induction mask with
  | nil => intro h; cases h
  | cons b bs ih =>
    intro h
    cases b with
    | true =>
      rw [runsAux_cons]
      simp
    | false =>
      rw [runsAux_cons]
      have hbs : true ∈ bs := by simpa using h
      simpa using ih hbs

/-- C2: for every token sequence (of ids below the reserved sentinel range)
and every equal-length noise mask with at least one noise position, the
sentinel ids appearing in the encoder output are, in order of appearance,
exactly `V, V-1, V-2, …` — the first noise span receives the highest reserved
id `V = vocab["<extra_id_0>"]` and each subsequent span an id exactly one
lower. -/
theorem C2_theorem (V eosId : ℤ) (tokens : List ℤ) (mask : List Bool)
    (hlen : tokens.length = mask.length)
    (htok : ∀ t ∈ tokens, t < V + 1 - (mask.length : ℤ))
    (heos : eosId < V + 1 - (mask.length : ℤ))
    (hnoise : true ∈ mask) :
    (noise_span_to_unique_sentinel V eosId tokens mask false).map
        (fun out => out.filter (fun x => decide (V + 1 - (mask.length : ℤ) ≤ x)))
      = some ((List.range (countTrueRuns mask)).map (fun j : ℕ => V - (j : ℤ))) ∧
    1 ≤ countTrueRuns mask := by
  refine ⟨?_, one_le_countTrueRuns mask hnoise⟩
  rw [noise_span_spec_false V eosId tokens mask hlen, Option.map_some', Option.some.injEq]
  rw [List.filter_append,
    List.filter_cons_of_neg (by simp only [decide_eq_true_eq]; omega),
    List.filter_nil, List.append_nil]
  rw [filter_ge_vecCore V _ mask tokens false 0 hlen htok (by push_cast; omega)]
  unfold countTrueRuns
  apply List.map_congr_left
  intro j _
  congr 1
  push_cast
  ring

/-- C2 witness: tokens `[5,6,7,8]`, one noise span at positions 2-3, `V = 100`,
eos id 1: the single sentinel is 100. -/
theorem C2_witness :
    ([5, 6, 7, 8] : List ℤ).length = ([false, true, true, false] : List Bool).length ∧
    (∀ t ∈ ([5, 6, 7, 8] : List ℤ),
      t < 100 + 1 - (([false, true, true, false] : List Bool).length : ℤ)) ∧
    (1 : ℤ) < 100 + 1 - (([false, true, true, false] : List Bool).length : ℤ) ∧
    true ∈ ([false, true, true, false] : List Bool) ∧
    ((noise_span_to_unique_sentinel 100 1 [5, 6, 7, 8] [false, true, true, false] false).map
        (fun out => out.filter (fun x =>
          decide (100 + 1 - (([false, true, true, false] : List Bool).length : ℤ) ≤ x)))
      = some ((List.range (countTrueRuns [false, true, true, false])).map
          (fun j : ℕ => (100 : ℤ) - (j : ℤ))) ∧
      1 ≤ countTrueRuns [false, true, true, false]) :=
  ⟨by decide, by decide, by decide, by decide,
    C2_theorem 100 1 [5, 6, 7, 8] [false, true, true, false]
      (by decide) (by decide) (by decide) (by decide)⟩

/-! ### C3: the dual-mask round trip -/

theorem maskSelect_map_not : ∀ (mask : List Bool) (ts : List ℤ),
    maskSelect false (mask.map not) ts = maskSelect true mask ts := by
  intro mask
  induction mask with
  | nil => intro ts; rfl
  | cons m ms ih =>
    intro ts
    cases ts with
    | nil => rfl
    | cons t ts =>
      rw [List.map_cons, maskSelect_cons, maskSelect_cons, ih]
      congr 1
      cases m <;> simp

theorem unpartition_maskSelect : ∀ (mask : List Bool) (ts : List ℤ),
    mask.length = ts.length →
    unpartition mask (maskSelect false mask ts) (maskSelect true mask ts) = ts := by
  intro mask
  induction mask with
  | nil =>
    intro ts h
    obtain rfl := List.length_eq_zero.mp h.symm
    rfl
  | cons m ms ih =>
    intro ts h
    cases ts with
    | nil => simp at h
    | cons t ts =>
      have h' : ms.length = ts.length := by simpa using h
      rw [maskSelect_cons, maskSelect_cons]
      cases m with
      | false =>
        rw [if_pos rfl, if_neg (by decide)]
        rw [show unpartition (false :: ms) ([t] ++ maskSelect false ms ts)
              ([] ++ maskSelect true ms ts)
            = t :: unpartition ms (maskSelect false ms ts) (maskSelect true ms ts) from rfl]
        rw [ih ts h']
      | true =>
        rw [if_neg (by decide), if_pos rfl]
        rw [show unpartition (true :: ms) ([] ++ maskSelect false ms ts)
              ([t] ++ maskSelect true ms ts)
            = t :: unpartition ms (maskSelect false ms ts) (maskSelect true ms ts) from rfl]
        rw [ih ts h']

/-- C3 counterexample: on the empty token sequence with its (empty) mask the
complement call with the final-sentinel append does not return an output at
all — `sentinel.min()` is taken over an empty tensor, which raises — so the
round trip fails for the empty sequence. -/
theorem C3_counterexample :
    noise_span_to_unique_sentinel 100 1 ([] : List ℤ) (([] : List Bool).map not) true
      = none ∧
    ([] : List ℤ).length = ([] : List Bool).length :=
  ⟨rfl, rfl⟩

/-- C3 amended: for every NONEMPTY token sequence whose ids lie below the
reserved sentinel range and every equal-length noise mask, encoding once with
the mask and once with its complement (final-sentinel append on), then
dropping the trailing eos and removing the sentinel-range ids, recovers
exactly the non-noise tokens (input side) and the noise tokens (target side);
re-interleaving the two by the mask reconstructs the original sequence. -/
theorem C3_amended_theorem (V eosId : ℤ) (tokens : List ℤ) (mask : List Bool)
    (hlen : tokens.length = mask.length) (hne : tokens ≠ [])
    (htok : ∀ t ∈ tokens, t < V - (mask.length : ℤ)) :
    (noise_span_to_unique_sentinel V eosId tokens mask false).map
        (stripDecode (V - (mask.length : ℤ)))
      = some (maskSelect false mask tokens) ∧
    (noise_span_to_unique_sentinel V eosId tokens (mask.map not) true).map
        (stripDecode (V - (mask.length : ℤ)))
      = some (maskSelect true mask tokens) ∧
    unpartition mask (maskSelect false mask tokens) (maskSelect true mask tokens)
      = tokens := by
  have hmaskne : mask ≠ [] := by
    intro hc
    apply hne
    have hz : tokens.length = 0 := by
      rw [hc] at hlen
      simpa using hlen
    exact List.length_eq_zero.mp hz
  have hT : V - (mask.length : ℤ) ≤ V + 1 - ((0 + mask.length : ℕ) : ℤ) := by
    push_cast
    omega
  refine ⟨?_, ?_, unpartition_maskSelect mask tokens hlen.symm⟩
  · rw [noise_span_spec_false V eosId tokens mask hlen, Option.map_some', Option.some.injEq]
    unfold stripDecode
    rw [List.dropLast_concat]
    exact filter_lt_vecCore V _ mask tokens false 0 hlen htok hT
  · have hlen2 : tokens.length = (mask.map not).length := by
      rw [List.length_map]
      exact hlen
    have hmapne : mask.map not ≠ [] := by
      intro hc
      apply hmaskne
      cases mask with
      | nil => rfl
      | cons m ms => simp at hc
    obtain ⟨mn, hmem, hout⟩ :=
      noise_span_spec_true V eosId tokens (mask.map not) hlen2 hmapne
    rw [hout, Option.map_some', Option.some.injEq]
    unfold stripDecode
    rw [List.dropLast_concat, List.filter_append]
    have hmn := sentinelVec_ge V (mask.map not) false 0 mn hmem
    rw [List.length_map] at hmn
    have hmn1 : ¬ (mn - 1 < V - (mask.length : ℤ)) := by
      push_cast at hmn
      omega
    rw [List.filter_cons_of_neg (by simpa using hmn1), List.filter_nil, List.append_nil]
    have htok2 : ∀ t ∈ tokens, t < V - (mask.length : ℤ) := htok
    have hT2 : V - (mask.length : ℤ) ≤ V + 1 - ((0 + (mask.map not).length : ℕ) : ℤ) := by
      rw [List.length_map]
      exact hT
    rw [filter_lt_vecCore V _ (mask.map not) tokens false 0 hlen2 htok2 hT2]
    exact maskSelect_map_not mask tokens

/-- C3 witness: tokens `[5,6,7,8,9]`, noise at positions 2-3, `V = 100`: the
input side recovers `[5,6,9]`, the target side `[7,8]`, and interleaving
rebuilds the sequence. -/
theorem C3_witness :
    ([5, 6, 7, 8, 9] : List ℤ).length = ([false, false, true, true, false] : List Bool).length ∧
    ([5, 6, 7, 8, 9] : List ℤ) ≠ [] ∧
    (∀ t ∈ ([5, 6, 7, 8, 9] : List ℤ),
      t < 100 - (([false, false, true, true, false] : List Bool).length : ℤ)) ∧
    ((noise_span_to_unique_sentinel 100 1 [5, 6, 7, 8, 9]
          [false, false, true, true, false] false).map
        (stripDecode (100 - (([false, false, true, true, false] : List Bool).length : ℤ)))
      = some (maskSelect false [false, false, true, true, false] [5, 6, 7, 8, 9]) ∧
      (noise_span_to_unique_sentinel 100 1 [5, 6, 7, 8, 9]
          ([false, false, true, true, false].map not) true).map
        (stripDecode (100 - (([false, false, true, true, false] : List Bool).length : ℤ)))
      = some (maskSelect true [false, false, true, true, false] [5, 6, 7, 8, 9]) ∧
      unpartition [false, false, true, true, false]
        (maskSelect false [false, false, true, true, false] [5, 6, 7, 8, 9])
        (maskSelect true [false, false, true, true, false] [5, 6, 7, 8, 9])
      = [5, 6, 7, 8, 9]) :=
  ⟨by decide, by decide, by decide,
    C3_amended_theorem 100 1 [5, 6, 7, 8, 9] [false, false, true, true, false]
      (by decide) (by decide) (by decide)⟩

/-! ### C9: token-type-id reconstruction -/

/-- `find?` over `range' s n` returns the first index satisfying the
predicate. -/
theorem find_range_eq_some (p : ℕ → Bool) (i : ℕ) : ∀ (n s : ℕ),
    (∀ j, s ≤ j → j < i → p j = false) → s ≤ i → i < s + n → p i = true →
    (List.range' s n).find? p = some i := by
  intro n
  induction n with
  | zero =>
    intro s _ hsi hin _
    omega
  | succ n ih =>
    intro s hbelow hsi hin hpi
    rw [List.range'_succ]
    rcases Nat.eq_or_lt_of_le hsi with rfl | hlt
    · rw [List.find?_cons_of_pos _ hpi]
    · rw [List.find?_cons_of_neg _ (by rw [hbelow s le_rfl hlt]; simp)]
      exact ih (s + 1) (fun j hj1 hj2 => hbelow j (by omega) hj2) (by omega) (by omega) hpi

/-- The per-example row of `pad_for_token_type_ids` when the example has its
first separator at position `i`, not in last position: zeros up to and
including the separator, ones after, out to the padded width `M`. -/
theorem tokenTypeRow_sep (sepId : ℤ) (M : ℕ) (ex : List ℤ) (i : ℕ)
    (hi : i + 1 < ex.length) (hsep : ex.getD i 0 = sepId)
    (hfirst : ∀ j, j < i → ex.getD j 0 ≠ sepId) :
    tokenTypeRow sepId M ex
      = some (List.replicate (i + 1) 0 ++ List.replicate (M - i - 1) 1) := by
  unfold tokenTypeRow
  have hfind : (List.range (ex.length - 1)).find?
      (fun j => decide (ex.getD j 0 = sepId)) = some i := by
    rw [List.range_eq_range']
    exact find_range_eq_some _ i (ex.length - 1) 0
      (fun j _ hj => by simpa using hfirst j hj) (by omega) (by omega)
      (by simpa using hsep)
  rw [hfind]

/-- C9: `pad_for_token_type_ids` assigns, per example, type id 0 to every
position up to and including the (first, not-final) separator and type id 1 to
every position after it; the 0/1 boundary `i` depends only on the example (the
padded width `M` is an arbitrary parameter here, so the boundary is
independent of the batch's padded width and computed before padding), and the
batch output is exactly the per-example rows. -/
theorem C9_theorem (sepId : ℤ) (padToMultipleOf : ℕ) (examples : List (List ℤ))
    (ex : List ℤ) (i M : ℕ)
    (hi : i + 1 < ex.length) (hsep : ex.getD i 0 = sepId)
    (hfirst : ∀ j, j < i → ex.getD j 0 ≠ sepId) :
    tokenTypeRow sepId M ex
      = some (List.replicate (i + 1) 0 ++ List.replicate (M - i - 1) 1) ∧
    pad_for_token_type_ids sepId padToMultipleOf examples
      = examples.filterMap (tokenTypeRow sepId (ttidsMaxSeqLen padToMultipleOf examples)) :=
  ⟨tokenTypeRow_sep sepId M ex i hi hsep hfirst, rfl⟩

/-- C9 witness: example `[5, 30, 6, 7, 30]` with separator id 30 (first hit at
position 1, the final 30 is ignored), padded width 8: the row is
`[0,0,1,1,1,1,1,1]`. -/
theorem C9_witness :
    1 + 1 < ([5, 30, 6, 7, 30] : List ℤ).length ∧
    ([5, 30, 6, 7, 30] : List ℤ).getD 1 0 = 30 ∧
    (∀ j, j < 1 → ([5, 30, 6, 7, 30] : List ℤ).getD j 0 ≠ 30) ∧
    (tokenTypeRow 30 8 [5, 30, 6, 7, 30]
      = some (List.replicate (1 + 1) 0 ++ List.replicate (8 - 1 - 1) 1) ∧
    pad_for_token_type_ids 30 8 [[5, 30, 6, 7, 30]]
      = [[5, 30, 6, 7, 30]].filterMap (tokenTypeRow 30 (ttidsMaxSeqLen 8 [[5, 30, 6, 7, 30]]))) :=
  ⟨by decide, by decide, by decide,
    C9_theorem 30 8 [[5, 30, 6, 7, 30]] [5, 30, 6, 7, 30] 1 8
      (by decide) (by decide) (by decide)⟩

end Lassl
